import Mathlib

/-!
Shallow embedding of the `simpleldap` gateway (src/main.rs): a small LDAP
front-end over a read-only SQLite user table.  Strings are modelled as
`List Char`, the SQLite table as a list of rows, the external SHA-512 hex
digest of the `crypto` crate as a function parameter, and the regex / SQL
`LIKE` matching used by the source is embedded directly as recursive
character-list matchers.
-/

namespace SimpleLdap

abbrev Str := List Char

/-- Character class of the regex `\w` (word character), modelled on ASCII
letters, digits and underscore. -/
def isWordChar (c : Char) : Bool := c.isAlphanum || c == '_'

/-- The filter evaluator's sentinel value `"%"`. -/
def sentinel : Str := ['%']

/-- Length of `dropWhile` never exceeds the length of the input. -/
theorem length_dropWhile_le (p : Char → Bool) (l : Str) :
    (l.dropWhile p).length ≤ l.length := by
  have h := congrArg List.length (List.takeWhile_append_dropWhile p l)
  simp only [List.length_append] at h
  omega

/-- Match one `\w+=\w+` component at the head of `s` (both runs taken
greedily, which is forced because `\w` excludes `=` and `,`); on success
return the rest of the input. -/
def chkComp (s : Str) : Option Str :=
  if (s.takeWhile isWordChar).isEmpty then none
  else
    match s.dropWhile isWordChar with
    | '=' :: r2 =>
      if (r2.takeWhile isWordChar).isEmpty then none
      else some (r2.dropWhile isWordChar)
    | _ => none

theorem chkComp_length {s r : Str} (h : chkComp s = some r) : r.length < s.length := by
  unfold chkComp at h
  split at h
  · exact absurd h (by simp)
  · split at h
    next r2 heq =>
      split at h
      · exact absurd h (by simp)
      · have h1 : r = r2.dropWhile isWordChar := (Option.some.inj h).symm
        have h2 : (r2.dropWhile isWordChar).length ≤ r2.length :=
          length_dropWhile_le _ _
        have h3 : (s.dropWhile isWordChar).length ≤ s.length :=
          length_dropWhile_le _ _
        rw [heq] at h3
        simp only [List.length_cons] at h3
        subst h1
        omega
    next => exact absurd h (by simp)

/-- Component loop of the DN regex, with explicit fuel so that the function
reduces by evaluation; one fuel unit is spent per component, and fuel larger
than the input length is always enough because a component consumes at least
three characters. -/
def chkDnAux : Nat → Str → Bool
  | 0, _ => false
  | fuel + 1, s =>
    match chkComp s with
    | none => false
    | some [] => true
    | some (c :: rest) => if c = ',' then chkDnAux fuel rest else false

/-- Embedding of `LdapSession::check_dn_format`: the anchored regex
`^(?:\w+=\w+,)*?(?:\w+=\w+)$`.  (The `Err` branch of the Rust function is
dead code, since the constant pattern always compiles.) -/
def check_dn_format (s : Str) : Bool := chkDnAux (s.length + 1) s

/-- Fuel irrelevance for `chkDnAux`: any fuel beyond the input length gives
the same answer. -/
theorem chkDnAux_fuel : ∀ {f1 : Nat} {s : Str} {f2 : Nat},
    s.length < f1 → s.length < f2 → chkDnAux f1 s = chkDnAux f2 s := by
  intro f1
  induction f1 with
  | zero => intro s f2 h1; omega
  | succ f ih =>
    intro s f2 h1 h2
    match f2, h2 with
    | f2 + 1, h2 =>
      simp only [chkDnAux]
      cases hc : chkComp s with
      | none => rfl
      | some r =>
        cases r with
        | nil => rfl
        | cons c rest =>
          have hlen := chkComp_length hc
          simp only [List.length_cons] at hlen
          by_cases hcc : c = ','
          · simp only [hcc, if_pos rfl]
            exact ih (by omega) (by omega)
          · simp [hcc]

/-- Embedding of `Database::extract_uid`: the regex `^uid=(\w+),.*?$` applied
to a DN.  In the source's regex dialect `.` does not match a newline and `$`
matches only the end of the haystack, so the text after the comma must be
newline-free.  Returns the captured uid or an error. -/
def extract_uid (dn : Str) : Except Str Str :=
  match dn with
  | 'u' :: 'i' :: 'd' :: '=' :: rest =>
    let w := rest.takeWhile isWordChar
    let r := rest.dropWhile isWordChar
    if w.isEmpty then .error ("UID not found in: ".toList ++ dn)
    else
      match r with
      | ',' :: tail =>
        if tail.contains '\n' then .error ("UID not found in: ".toList ++ dn)
        else .ok w
      | _ => .error ("UID not found in: ".toList ++ dn)
  | _ => .error ("UID not found in: ".toList ++ dn)

/-- Model of SQLite `LIKE`, with explicit fuel so that the function reduces
by evaluation; every recursive call shrinks pattern-plus-text, so fuel
larger than their combined length is always enough. -/
def likeMatchAux : Nat → Str → Str → Bool
  | 0, _, _ => false
  | fuel + 1, p, t =>
    match p, t with
    | [], [] => true
    | [], _ :: _ => false
    | '%' :: p, t =>
      likeMatchAux fuel p t ||
        (match t with
         | [] => false
         | _ :: t2 => likeMatchAux fuel ('%' :: p) t2)
    | '_' :: p, t =>
      (match t with
       | [] => false
       | _ :: t2 => likeMatchAux fuel p t2)
    | c :: p, t =>
      (match t with
       | [] => false
       | d :: t2 => (c.toLower == d.toLower) && likeMatchAux fuel p t2)

/-- SQLite `LIKE` as used by `search_user` for `Subtree` scope: `%` matches
any character sequence, `_` any single character, and ordinary characters
compare ASCII-case-insensitively.  `likeMatch p t` is `t LIKE p`. -/
def likeMatch (p t : Str) : Bool := likeMatchAux (p.length + t.length + 1) p t

/-- Embedding of `LdapSearchScope` from the protocol crate. -/
inductive LdapSearchScope where
  | Base
  | OneLevel
  | Subtree
deriving DecidableEq

/-- One row of the SQLite `users` table, columns in `select *` order:
userbase (the DN), passhash, maysearch, given name, surname, email. -/
structure DbRow where
  userbase : Str
  passhash : Str
  maysearch : Int
  given_name : Str
  surname : Str
  email : Str
deriving DecidableEq

/-- Embedding of the source's `UserDef` record. -/
structure UserDef where
  uid : Str
  dn : Str
  passhash : Str
  maysearch : Int
  email : Str
  given_name : Str
  surname : Str
deriving DecidableEq

/-- The SQL `where` clause built by `Database::search_user`:
`userbase like ?` for `Subtree` scope and `userbase = ?` otherwise
(SQLite's `=` on text is an exact binary comparison). -/
def rowMatches (search : Str) (scope : LdapSearchScope) (row : DbRow) : Bool :=
  if scope = LdapSearchScope.Subtree then likeMatch search row.userbase
  else row.userbase == search

/-- Database handle: the outcome of opening the read-only store and preparing
the query — either an error (open, prepare or bind failure) or the table. -/
abbrev Database := Except Str (List DbRow)

/-- Body of the row loop in `Database::search_user`: build a `UserDef` from
one returned row, or skip the row (after the logged diagnostic) when its DN
yields no extractable uid. -/
def rowToUser (row : DbRow) : Option UserDef :=
  match extract_uid row.userbase with
  | .error _ => none
  | .ok uid =>
    some { uid := uid, dn := row.userbase, passhash := row.passhash,
           maysearch := row.maysearch, email := row.email,
           given_name := row.given_name, surname := row.surname }

/-- Embedding of `Database::search_user`: select the matching rows, then map
each row to a `UserDef`, skipping any row whose DN yields no extractable
uid. -/
def search_user (db : Database) (search : Str) (scope : LdapSearchScope) :
    Except Str (List UserDef) :=
  match db with
  | .error e => .error e
  | .ok table =>
    .ok ((table.filter (rowMatches search scope)).filterMap rowToUser)

/-- Embedding of `LdapFilter` from the protocol crate (the `Substring`
payload is summarised; the source never inspects it). -/
inductive LdapFilter where
  | And (fs : List LdapFilter)
  | Or (fs : List LdapFilter)
  | Not (f : LdapFilter)
  | Equality (attr : Str) (value : Str)
  | Substring (attr : Str) (initial : Option Str) (middle : List Str) (final : Option Str)
  | Present (attr : Str)

mutual
/-- Embedding of `LdapSession::recurse_filters`. -/
def recurse_filters : LdapFilter → Str
  | .Equality itm uname => if itm == "uid".toList then uname else sentinel
  | .And fs => recurse_list fs
  | .Or fs => recurse_list fs
  | .Not _ => sentinel
  | .Substring _ _ _ _ => sentinel
  | .Present _ => sentinel

/-- The `for` loop over children inside `recurse_filters`. -/
def recurse_list : List LdapFilter → Str
  | [] => sentinel
  | f :: rest =>
    let r := recurse_filters f
    if r ≠ sentinel then r else recurse_list rest
end

/-- Result codes the handlers use. -/
inductive LdapResultCode where
  | Success
  | OperationsError
  | InvalidAttributeSyntax
  | InvalidCredentials
  | Other
deriving DecidableEq

/-- Messages the handlers produce: either a plain result (bind response or
search-done marker) carrying a code and diagnostic text, or one search
result entry. -/
inductive LdapMsg where
  | result (code : LdapResultCode) (msg : Str)
  | entry (dn : Str) (attributes : List (Str × List Str))
deriving DecidableEq

/-- Per-connection session state. -/
structure LdapSession where
  dn : Str
  maysearch : Bool
deriving DecidableEq

/-- The session created at connection start. -/
def initialSession : LdapSession :=
  { dn := "Anonymous".toList, maysearch := false }

/-- Embedding of `LdapSession::do_bind`.  The parameter `hash` models the
external `crypto` crate's lowercase-hex SHA-512 digest
(`Sha512::new`, `input_str`, `result_str`).  Returns the updated session
and the response message. -/
def do_bind (hash : Str → Str) (sess : LdapSession) (db : Database)
    (dn pw : Str) : LdapSession × LdapMsg :=
  if !check_dn_format dn then
    (sess, .result .InvalidAttributeSyntax "Bind string non-conformant".toList)
  else
    match search_user db dn .Base with
    | .error e => (sess, .result .OperationsError e)
    | .ok users =>
      let passhex := hash pw
      match users.find? (fun u => u.passhash == passhex) with
      | some user =>
        ({ dn := user.dn,
           maysearch := if user.maysearch > 0 then true else sess.maysearch },
         .result .Success [])
      | none => (sess, .result .InvalidCredentials [])

/-- Prefix test, character by character. -/
def startsWith : Str → Str → Bool
  | [], _ => true
  | _ :: _, [] => false
  | p :: ps, c :: cs => p == c && startsWith ps cs

/-- The anchored regex `^uid=\w+,(.*?)$` that `do_search` applies to the
search base (again `.` excludes newlines). -/
def uidBaseMatch (s : Str) : Bool :=
  match s with
  | 'u' :: 'i' :: 'd' :: '=' :: rest =>
    let w := rest.takeWhile isWordChar
    let r := rest.dropWhile isWordChar
    !w.isEmpty &&
      (match r with
       | ',' :: tail => !tail.contains '\n'
       | _ => false)
  | _ => false

/-- One attempt of the post-filter regex `uid=\w+,<base>` at a fixed
position of the text (the `\w+` run is forced to be greedy because the
following character must be a comma). -/
def tunameMatchAt (base s : Str) : Bool :=
  match s with
  | 'u' :: 'i' :: 'd' :: '=' :: rest =>
    let w := rest.takeWhile isWordChar
    let r := rest.dropWhile isWordChar
    !w.isEmpty &&
      (match r with
       | ',' :: tail => startsWith base tail
       | _ => false)
  | _ => false

/-- The `tuname_check` regex `uid=\w+,<base>` of `do_search` is unanchored,
so `is_match` searches for a match starting at every position of the DN.
The base interpolated into the pattern is regex-literal because it passed
`check_dn_format` (word characters, `=` and `,` only). -/
def tunameCheck (base s : Str) : Bool :=
  s.tails.any (tunameMatchAt base)

/-- Search-key resolution of `do_search`: the pair
`(search, perform_tuname_check)`. -/
def resolveSearch (base : Str) (filter : LdapFilter) : Str × Bool :=
  if uidBaseMatch base then (base, false)
  else
    let tuname := recurse_filters filter
    ("uid=".toList ++ tuname ++ ',' :: base, tuname == sentinel)

/-- The fixed synthetic attribute set of one search result entry. -/
def userAttrs (u : UserDef) : List (Str × List Str) :=
  [("objectClass".toList, ["users".toList]),
   ("cn".toList, [u.given_name ++ ' ' :: u.surname]),
   ("uid".toList, [u.uid]),
   ("givenName".toList, [u.given_name]),
   ("surname".toList, [u.surname]),
   ("email".toList, [u.email])]

/-- Embedding of `LdapSession::do_search`. -/
def do_search (sess : LdapSession) (db : Database) (base : Str)
    (scope : LdapSearchScope) (filter : LdapFilter) : List LdapMsg :=
  if !check_dn_format base then
    [.result .InvalidAttributeSyntax "Search string non-conformant".toList]
  else
    let sr := resolveSearch base filter
    match search_user db sr.1 scope with
    | .error _ => [.result .Other "Internal Server Error".toList]
    | .ok users =>
      (users.filterMap fun user =>
        if sr.2 && !tunameCheck base user.dn then none
        else if !sess.maysearch && sess.dn ≠ user.dn then none
        else some (.entry user.dn (userAttrs user))) ++ [.result .Success []]

/-- Embedding of `LdapSession::do_whoami`: returns `dn: <bound dn>` with no
store access. -/
def do_whoami (sess : LdapSession) : LdapMsg :=
  .result .Success ("dn: ".toList ++ sess.dn)

/-! Specification-side definitions used to state the claims. -/

mutual
/-- Values of `uid` equality nodes in depth-first left-to-right order,
descending only through `And` and `Or` (the node kinds the evaluator
inspects). -/
def uidValues : LdapFilter → List Str
  | .Equality itm uname => if itm == "uid".toList then [uname] else []
  | .And fs => uidValuesList fs
  | .Or fs => uidValuesList fs
  | .Not _ => []
  | .Substring _ _ _ _ => []
  | .Present _ => []

/-- Concatenation of `uidValues` over a child list. -/
def uidValuesList : List LdapFilter → List Str
  | [] => []
  | f :: rest => uidValues f ++ uidValuesList rest
end

/-- Claim-side notion of a direct child of the base: the whole DN is
`uid=<word>,<base>`. -/
def isDirectChild (base dn : Str) : Bool :=
  match dn with
  | 'u' :: 'i' :: 'd' :: '=' :: rest =>
    let w := rest.takeWhile isWordChar
    let r := rest.dropWhile isWordChar
    !w.isEmpty && r == ',' :: base
  | _ => false

/-- Render a component list as a DN string: `attr=value` joined by commas. -/
def renderDn : List (Str × Str) → Str
  | [] => []
  | (a, v) :: rest =>
    a ++ '=' :: v ++ (if rest.isEmpty then [] else ',' :: renderDn rest)

/-- A well-formed component: nonempty word-character attribute and value. -/
def goodComp (p : Str × Str) : Bool :=
  !p.1.isEmpty && !p.2.isEmpty && p.1.all isWordChar && p.2.all isWordChar

/-- Scan for a trailing comma or two adjacent commas. -/
def noBadComma : Str → Bool
  | [] => true
  | [c] => !(c == ',')
  | c :: d :: rest => !(c == ',' && d == ',') && noBadComma (d :: rest)

/-- Presence of an empty component in a comma-separated string: the string
is empty, starts or ends with a comma, or has two adjacent commas. -/
def hasEmptyComponent (s : Str) : Bool :=
  s.isEmpty || (s.head? == some ',') || !noBadComma s

/-- Whether a row's DN yields an extractable uid. -/
def hasUid (row : DbRow) : Bool :=
  match extract_uid row.userbase with
  | .ok _ => true
  | .error _ => false

/-! Lemmas about the filter evaluator. -/

mutual
theorem recurse_filters_eq_firstUid : ∀ f : LdapFilter,
    recurse_filters f = ((uidValues f).find? (fun v => v != sentinel)).getD sentinel
  | .Equality itm uname => by
    simp only [recurse_filters, uidValues]
    by_cases h : itm == "uid".toList
    · simp only [if_pos h, List.find?_cons, List.find?_nil]
      by_cases hv : uname != sentinel
      · simp [hv]
      · simp only [bne_iff_ne, ne_eq, not_not] at hv
        simp [hv]
    · have h2 : itm ≠ ['u', 'i', 'd'] := by simpa using h
      simp [h2]
  | .And fs => by
    simp only [recurse_filters, uidValues]
    exact recurse_list_eq_firstUid fs
  | .Or fs => by
    simp only [recurse_filters, uidValues]
    exact recurse_list_eq_firstUid fs
  | .Not f => by simp [recurse_filters, uidValues]
  | .Substring a i m fl => by simp [recurse_filters, uidValues]
  | .Present a => by simp [recurse_filters, uidValues]

theorem recurse_list_eq_firstUid : ∀ fs : List LdapFilter,
    recurse_list fs = ((uidValuesList fs).find? (fun v => v != sentinel)).getD sentinel
  | [] => by simp [recurse_list, uidValuesList]
  | f :: rest => by
    simp only [recurse_list, uidValuesList, List.find?_append]
    rw [recurse_filters_eq_firstUid f, recurse_list_eq_firstUid rest]
    cases hf : (uidValues f).find? (fun v => v != sentinel) with
    | none => simp [Option.or]
    | some v =>
      have hv := List.find?_some hf
      simp only [bne_iff_ne, ne_eq, decide_eq_true_eq] at hv
      simp [Option.or, hv]
end

/-! Claim theorems for the filter evaluator. -/

/-- C6: the evaluator returns the first non-sentinel value among the `uid`
equality nodes in depth-first left-to-right order (so the first `uid`
equality found wins, sentinel-valued results being skipped); `And` and `Or`
are traversed identically; every other node kind yields the sentinel `%`
without descending; and in particular
`extractUid(Equality("uid","alice")) = "alice"`,
`extractUid(And([Equality("cn","x"), Equality("uid","bob")])) = "bob"` and
`extractUid(Or([Present("uid")])) = "%"`. -/
theorem recurse_filters_spec :
    (∀ f : LdapFilter, recurse_filters f =
        ((uidValues f).find? (fun v => v != sentinel)).getD sentinel) ∧
    (∀ fs : List LdapFilter, recurse_filters (.And fs) = recurse_filters (.Or fs)) ∧
    (∀ f : LdapFilter, recurse_filters (.Not f) = sentinel) ∧
    (∀ a : Str, recurse_filters (.Present a) = sentinel) ∧
    (∀ (a : Str) (i : Option Str) (m : List Str) (fl : Option Str),
        recurse_filters (.Substring a i m fl) = sentinel) ∧
    recurse_filters (.Equality "uid".toList "alice".toList) = "alice".toList ∧
    recurse_filters (.And [.Equality "cn".toList "x".toList,
        .Equality "uid".toList "bob".toList]) = "bob".toList ∧
    recurse_filters (.Or [.Present "uid".toList]) = sentinel :=
  ⟨recurse_filters_eq_firstUid,
   fun _ => rfl,
   fun _ => rfl,
   fun _ => rfl,
   fun _ _ _ _ => rfl,
   rfl, rfl, rfl⟩

/-- C10: the filter `Equality("uid","%")` evaluates to the sentinel `%`
itself, so the search handler takes the wildcard path — resolved key
`uid=%,<base>` with the direct-child post-filter enabled — and its response
is identical to that for any filter from which no identity is recoverable,
for every session, store, base and scope. -/
theorem uid_percent_indistinguishable :
    recurse_filters (.Equality "uid".toList "%".toList) = sentinel ∧
    (∀ base : Str, uidBaseMatch base = false →
      resolveSearch base (.Equality "uid".toList "%".toList) =
        ("uid=".toList ++ sentinel ++ ',' :: base, true)) ∧
    (∀ f2 : LdapFilter, recurse_filters f2 = sentinel →
      ∀ (sess : LdapSession) (db : Database) (base : Str) (scope : LdapSearchScope),
        do_search sess db base scope (.Equality "uid".toList "%".toList) =
          do_search sess db base scope f2) := by
  refine ⟨rfl, ?_, ?_⟩
  · intro base hb
    simp [resolveSearch, hb]
    rfl
  · intro f2 h2 sess db base scope
    have hpc : recurse_filters (LdapFilter.Equality "uid".toList "%".toList) =
        sentinel := rfl
    have hres : resolveSearch base (.Equality "uid".toList "%".toList) =
        resolveSearch base f2 := by
      unfold resolveSearch
      rw [h2, hpc]
    unfold do_search
    rw [hres]

/-- Closed instance of the hypotheses of `uid_percent_indistinguishable`. -/
theorem uid_percent_indistinguishable_witness :
    uidBaseMatch "ou=people".toList = false ∧
    recurse_filters (.Present "x".toList) = sentinel ∧
    resolveSearch "ou=people".toList (.Equality "uid".toList "%".toList) =
      ("uid=".toList ++ sentinel ++ ',' :: "ou=people".toList, true) ∧
    do_search initialSession (.ok []) "ou=people".toList .Subtree
        (.Equality "uid".toList "%".toList) =
      do_search initialSession (.ok []) "ou=people".toList .Subtree
        (.Present "x".toList) :=
  ⟨by decide, rfl,
   uid_percent_indistinguishable.2.1 "ou=people".toList (by decide),
   uid_percent_indistinguishable.2.2 (.Present "x".toList) rfl _ _ _ _⟩

/-! Lemmas and claim theorems for bind. -/

/-- Unfolding of `do_bind` when the DN is well-formed and the store is
available. -/
theorem do_bind_ok (hash : Str → Str) (sess : LdapSession) (table : List DbRow)
    (dn pw : Str) (hwf : check_dn_format dn = true)
    {users : List UserDef} (hu : search_user (.ok table) dn .Base = .ok users) :
    do_bind hash sess (.ok table) dn pw =
      match users.find? (fun u => u.passhash == hash pw) with
      | some user =>
        ({ dn := user.dn,
           maysearch := if user.maysearch > 0 then true else sess.maysearch },
         .result .Success [])
      | none => (sess, .result .InvalidCredentials []) := by
  unfold do_bind
  rw [hwf]
  simp only [Bool.not_true, Bool.false_eq_true, if_false]
  rw [hu]

/-- C1: for a well-formed DN and an available store, bind succeeds exactly
when the exact-match store lookup on that DN returns a row whose stored hash
equals the digest of the supplied credential; in every other case — no row
for the DN, or no row with a matching hash — bind returns the one
invalid-credentials response, identical in both cases. -/
theorem bind_success_iff_hash_match (hash : Str → Str) (sess : LdapSession)
    (table : List DbRow) (dn pw : Str) (hwf : check_dn_format dn = true) :
    ∃ users, search_user (.ok table) dn .Base = .ok users ∧
      (((do_bind hash sess (.ok table) dn pw).2 = .result .Success []) ↔
        ∃ u ∈ users, u.passhash = hash pw) ∧
      ((¬ ∃ u ∈ users, u.passhash = hash pw) →
        (do_bind hash sess (.ok table) dn pw).2 =
          .result .InvalidCredentials []) := by
  obtain ⟨users, hu⟩ : ∃ users, search_user (.ok table) dn .Base = .ok users :=
    ⟨_, rfl⟩
  refine ⟨users, hu, ?_, ?_⟩
  · rw [do_bind_ok hash sess table dn pw hwf hu]
    cases hf : users.find? (fun u => u.passhash == hash pw) with
    | some u =>
      simp only [hf]
      constructor
      · intro _
        exact ⟨u, List.mem_of_find?_eq_some hf,
          by simpa using List.find?_some hf⟩
      · intro _
        trivial
    | none =>
      simp only [hf]
      constructor
      · intro h
        exact absurd h (by simp)
      · rintro ⟨u, hm, hph⟩
        have hnm := List.find?_eq_none.mp hf u hm
        simp only [beq_iff_eq] at hnm
        exact absurd hph (by simpa using hnm)
  · intro hne
    rw [do_bind_ok hash sess table dn pw hwf hu]
    cases hf : users.find? (fun u => u.passhash == hash pw) with
    | some u =>
      exact absurd ⟨u, List.mem_of_find?_eq_some hf,
        by simpa using List.find?_some hf⟩ hne
    | none =>
      simp [hf]

/-- Closed instance of `bind_success_iff_hash_match`, at a concrete store
with one matching row. -/
theorem bind_success_iff_hash_match_witness :
    check_dn_format "uid=alice,ou=people".toList = true ∧
    (∃ users, search_user
        (.ok [⟨"uid=alice,ou=people".toList, "ha".toList, 0, "G".toList,
              "S".toList, "E".toList⟩])
        "uid=alice,ou=people".toList .Base = .ok users ∧
      (((do_bind (fun _ => "ha".toList) initialSession
          (.ok [⟨"uid=alice,ou=people".toList, "ha".toList, 0, "G".toList,
                "S".toList, "E".toList⟩])
          "uid=alice,ou=people".toList "pw".toList).2 =
            .result .Success []) ↔
        ∃ u ∈ users, u.passhash = (fun (_ : Str) => "ha".toList) "pw".toList) ∧
      ((¬ ∃ u ∈ users, u.passhash = (fun (_ : Str) => "ha".toList) "pw".toList) →
        (do_bind (fun _ => "ha".toList) initialSession
          (.ok [⟨"uid=alice,ou=people".toList, "ha".toList, 0, "G".toList,
                "S".toList, "E".toList⟩])
          "uid=alice,ou=people".toList "pw".toList).2 =
            .result .InvalidCredentials [])) :=
  ⟨by decide,
   bind_success_iff_hash_match (fun _ => "ha".toList) initialSession
     [⟨"uid=alice,ou=people".toList, "ha".toList, 0, "G".toList,
       "S".toList, "E".toList⟩]
     "uid=alice,ou=people".toList "pw".toList (by decide)⟩

/-- C4 as stated is false: rebinding an already-privileged session against a
row with `maysearch = 0` succeeds, yet the session's flag stays `true`
instead of becoming the row's boolean value `false` — the flag is only ever
raised, never overwritten downwards. -/
theorem bind_overwrite_counterexample :
    (do_bind (fun _ => "h".toList) ⟨"uid=old,o=x".toList, true⟩
        (.ok [⟨"uid=bob,ou=people".toList, "h".toList, 0, "G".toList,
              "S".toList, "E".toList⟩])
        "uid=bob,ou=people".toList "pw".toList).2 = .result .Success [] ∧
    (do_bind (fun _ => "h".toList) ⟨"uid=old,o=x".toList, true⟩
        (.ok [⟨"uid=bob,ou=people".toList, "h".toList, 0, "G".toList,
              "S".toList, "E".toList⟩])
        "uid=bob,ou=people".toList "pw".toList).1.maysearch = true ∧
    ¬ ((0 : Int) > 0) := by
  refine ⟨by decide, by decide, by decide⟩

/-- C4 amended: on a successful bind against the first matching row `u`, the
session's identity is overwritten with `u.dn`, while its `maySearch` flag is
set to true when `u.maysearch > 0` and otherwise keeps its previous value
(so a previously-acquired `true` survives a rebind to an unprivileged row). -/
theorem bind_update_amended (hash : Str → Str) (sess : LdapSession)
    (table : List DbRow) (dn pw : Str) (hwf : check_dn_format dn = true)
    {users : List UserDef} (hu : search_user (.ok table) dn .Base = .ok users)
    {u : UserDef} (hf : users.find? (fun x => x.passhash == hash pw) = some u) :
    do_bind hash sess (.ok table) dn pw =
      ({ dn := u.dn,
         maysearch := if u.maysearch > 0 then true else sess.maysearch },
       .result .Success []) := by
  rw [do_bind_ok hash sess table dn pw hwf hu, hf]

/-- Closed instance of `bind_update_amended`: the unprivileged row leaves a
previously-privileged session privileged. -/
theorem bind_update_amended_witness :
    check_dn_format "uid=bob,ou=people".toList = true ∧
    search_user
        (.ok [⟨"uid=bob,ou=people".toList, "h".toList, 0, "G".toList,
              "S".toList, "E".toList⟩])
        "uid=bob,ou=people".toList .Base =
      .ok [⟨"bob".toList, "uid=bob,ou=people".toList, "h".toList, 0,
           "E".toList, "G".toList, "S".toList⟩] ∧
    do_bind (fun _ => "h".toList) ⟨"uid=old,o=x".toList, true⟩
        (.ok [⟨"uid=bob,ou=people".toList, "h".toList, 0, "G".toList,
              "S".toList, "E".toList⟩])
        "uid=bob,ou=people".toList "pw".toList =
      ({ dn := "uid=bob,ou=people".toList,
         maysearch := if (0 : Int) > 0 then true
                      else (⟨"uid=old,o=x".toList, true⟩ : LdapSession).maysearch },
       .result .Success []) :=
  ⟨by decide, rfl,
   @bind_update_amended (fun _ => "h".toList) ⟨"uid=old,o=x".toList, true⟩
     [⟨"uid=bob,ou=people".toList, "h".toList, 0, "G".toList,
       "S".toList, "E".toList⟩]
     "uid=bob,ou=people".toList "pw".toList (by decide)
     [⟨"bob".toList, "uid=bob,ou=people".toList, "h".toList, 0,
       "E".toList, "G".toList, "S".toList⟩] rfl
     ⟨"bob".toList, "uid=bob,ou=people".toList, "h".toList, 0,
      "E".toList, "G".toList, "S".toList⟩ rfl⟩

/-- C9 as stated is false: a store failure is reported with result code
`OperationsError` by bind but with result code `Other` by search — the two
operations do not use the same code. -/
theorem store_error_code_counterexample :
    (do_bind (fun _ => []) initialSession (.error "boom".toList)
        "uid=a,o=b".toList []).2 =
      .result .OperationsError "boom".toList ∧
    do_search initialSession (.error "boom".toList) "ou=x".toList .Base
        (.Present "uid".toList) =
      [.result .Other "Internal Server Error".toList] ∧
    LdapResultCode.Other ≠ LdapResultCode.OperationsError := by
  refine ⟨by decide, by decide, by decide⟩

/-- C9 amended: when the store cannot be opened or queried, each handler
still returns an operation-level error response (never a crash): bind
reports `OperationsError` carrying the cause text, while search reports
`Other` with the fixed text `Internal Server Error`. -/
theorem store_error_amended (hash : Str → Str) (sess : LdapSession) (e : Str)
    (dn pw base : Str) (scope : LdapSearchScope) (f : LdapFilter)
    (hdn : check_dn_format dn = true) (hbase : check_dn_format base = true) :
    do_bind hash sess (.error e) dn pw = (sess, .result .OperationsError e) ∧
    do_search sess (.error e) base scope f =
      [.result .Other "Internal Server Error".toList] := by
  constructor
  · unfold do_bind
    rw [hdn]
    simp [search_user]
  · unfold do_search
    rw [hbase]
    simp [search_user]

/-- Closed instance of `store_error_amended`. -/
theorem store_error_amended_witness :
    check_dn_format "uid=a,o=b".toList = true ∧
    check_dn_format "ou=x".toList = true ∧
    do_bind (fun _ => []) initialSession (.error "boom".toList)
        "uid=a,o=b".toList [] =
      (initialSession, .result .OperationsError "boom".toList) ∧
    do_search initialSession (.error "boom".toList) "ou=x".toList .Subtree
        (.Present "uid".toList) =
      [.result .Other "Internal Server Error".toList] :=
  ⟨by decide, by decide,
   (store_error_amended (fun _ => []) initialSession "boom".toList
     "uid=a,o=b".toList [] "ou=x".toList .Subtree (.Present "uid".toList)
     (by decide) (by decide)).1,
   (store_error_amended (fun _ => []) initialSession "boom".toList
     "uid=a,o=b".toList [] "ou=x".toList .Subtree (.Present "uid".toList)
     (by decide) (by decide)).2⟩

/-! Lemmas and claim theorems for search. -/

/-- Structure of every entry of a search response over an available store:
the entry stems from a table row that passed the SQL match for the resolved
key, its DN is that row's DN, it passed the post-filter whenever that filter
was enabled, and a non-privileged session only ever sees its own DN. -/
theorem do_search_entry_spec {sess : LdapSession} {table : List DbRow}
    {base : Str} {scope : LdapSearchScope} {f : LdapFilter} {dn : Str}
    {attrs : List (Str × List Str)}
    (hmem : LdapMsg.entry dn attrs ∈ do_search sess (.ok table) base scope f) :
    ∃ row ∈ table, row.userbase = dn ∧
      rowMatches (resolveSearch base f).1 scope row = true ∧
      ((resolveSearch base f).2 = true → tunameCheck base dn = true) ∧
      (sess.maysearch = false → dn = sess.dn) := by
  unfold do_search at hmem
  by_cases hb : check_dn_format base
  · rw [hb] at hmem
    simp only [Bool.not_true, Bool.false_eq_true, if_false] at hmem
    simp only [search_user] at hmem
    rw [List.mem_append] at hmem
    rcases hmem with hmem | hmem
    · rw [List.mem_filterMap] at hmem
      obtain ⟨user, huser, heq⟩ := hmem
      rw [List.mem_filterMap] at huser
      obtain ⟨row, hrow, hconv⟩ := huser
      rw [List.mem_filter] at hrow
      obtain ⟨hrowmem, hrowmatch⟩ := hrow
      unfold rowToUser at hconv
      have hdnrow : user.dn = row.userbase := by
        cases hex : extract_uid row.userbase with
        | error e =>
          rw [hex] at hconv
          exact absurd hconv (by simp)
        | ok uid =>
          rw [hex] at hconv
          cases Option.some.inj hconv
          rfl
      by_cases h1 : (resolveSearch base f).2 && !tunameCheck base user.dn
      · rw [if_pos h1] at heq
        exact absurd heq (by simp)
      · rw [if_neg h1] at heq
        by_cases h2 : !sess.maysearch && decide (sess.dn ≠ user.dn)
        · rw [if_pos h2] at heq
          exact absurd heq (by simp)
        · rw [if_neg h2] at heq
          have hinj := Option.some.inj heq
          injection hinj with hdneq hattrs
          refine ⟨row, hrowmem, by rw [← hdneq, hdnrow], hrowmatch, ?_, ?_⟩
          · intro hflag
            by_contra htc
            rw [hdneq] at h1
            simp only [hflag, Bool.true_and, Bool.not_eq_true', Bool.not_eq_false] at h1
            exact htc h1
          · intro hms
            rw [hdneq] at h2
            simp only [hms, Bool.not_false, Bool.true_and,
              decide_eq_true_eq, not_not] at h2
            exact h2.symm
    · exact absurd hmem (by simp)
  · simp only [Bool.not_eq_true] at hb
    rw [hb] at hmem
    exact absurd hmem (by simp)

/-- C2: a session whose `maySearch` flag is false only receives entries for
its own bound DN, for every store, base, scope and filter: every entry of
the response carries exactly the session DN. -/
theorem search_nonprivileged_sees_only_self (sess : LdapSession)
    (db : Database) (base : Str) (scope : LdapSearchScope) (f : LdapFilter)
    (dn : Str) (attrs : List (Str × List Str))
    (hpriv : sess.maysearch = false)
    (hmem : LdapMsg.entry dn attrs ∈ do_search sess db base scope f) :
    dn = sess.dn := by
  cases db with
  | error e =>
    unfold do_search at hmem
    by_cases hb : check_dn_format base
    · rw [hb] at hmem
      simp only [Bool.not_true, Bool.false_eq_true, if_false] at hmem
      simp only [search_user] at hmem
      exact absurd hmem (by simp)
    · simp only [Bool.not_eq_true] at hb
      rw [hb] at hmem
      exact absurd hmem (by simp)
  | ok table =>
    obtain ⟨row, _, _, _, _, hown⟩ := do_search_entry_spec hmem
    exact hown hpriv

/-- Closed instance of `search_nonprivileged_sees_only_self`: a
non-privileged session searching its own subtree receives its own entry. -/
theorem search_nonprivileged_sees_only_self_witness :
    (⟨"uid=alice,ou=people".toList, false⟩ : LdapSession).maysearch = false ∧
    LdapMsg.entry "uid=alice,ou=people".toList
        (userAttrs ⟨"alice".toList, "uid=alice,ou=people".toList, "h".toList,
                    0, "E".toList, "G".toList, "S".toList⟩) ∈
      do_search ⟨"uid=alice,ou=people".toList, false⟩
        (.ok [⟨"uid=alice,ou=people".toList, "h".toList, 0, "G".toList,
              "S".toList, "E".toList⟩])
        "ou=people".toList .Base (.Equality "uid".toList "alice".toList) ∧
    "uid=alice,ou=people".toList =
      (⟨"uid=alice,ou=people".toList, false⟩ : LdapSession).dn :=
  ⟨rfl, by decide,
   search_nonprivileged_sees_only_self
     ⟨"uid=alice,ou=people".toList, false⟩
     (.ok [⟨"uid=alice,ou=people".toList, "h".toList, 0, "G".toList,
           "S".toList, "E".toList⟩])
     "ou=people".toList .Base (.Equality "uid".toList "alice".toList)
     "uid=alice,ou=people".toList
     (userAttrs ⟨"alice".toList, "uid=alice,ou=people".toList, "h".toList,
                 0, "E".toList, "G".toList, "S".toList⟩)
     rfl (by decide)⟩

/-- C3 as stated is false: with `Subtree` scope the store lookup is a `LIKE`
pattern match even when the base itself contains a `uid=` component.  The
well-formed base `uid=a_b,ou=x` (underscore is a word character, but also a
`LIKE` single-character wildcard) retrieves the different row
`uid=axb,ou=x`, which an exact equality lookup on the base could never
return. -/
theorem search_exact_match_counterexample :
    uidBaseMatch "uid=a_b,ou=x".toList = true ∧
    LdapMsg.entry "uid=axb,ou=x".toList
        (userAttrs ⟨"axb".toList, "uid=axb,ou=x".toList, "h".toList, 1,
                    "E".toList, "G".toList, "S".toList⟩) ∈
      do_search ⟨"x".toList, true⟩
        (.ok [⟨"uid=axb,ou=x".toList, "h".toList, 1, "G".toList,
              "S".toList, "E".toList⟩])
        "uid=a_b,ou=x".toList .Subtree (.Present "uid".toList) ∧
    "uid=axb,ou=x".toList ≠ "uid=a_b,ou=x".toList := by
  refine ⟨by decide, by decide, by decide⟩

/-- C3 amended: when the base contains a `uid=` component the filter tree is
indeed ignored and the key is the base itself, and when the evaluator
recovers a uid `u` the key is `uid=<u>,<base>`; but the match mode is
scope-dependent rather than always exact — an equality comparison for
non-`Subtree` scopes, and a `LIKE` pattern match (which can over-match via
`LIKE` metacharacters or ASCII case differences) for `Subtree` scope. -/
theorem search_key_scope_amended (sess : LdapSession) (table : List DbRow)
    (base : Str) (scope : LdapSearchScope) (f g : LdapFilter) (dn : Str)
    (attrs : List (Str × List Str)) :
    (uidBaseMatch base = true →
       do_search sess (.ok table) base scope f =
         do_search sess (.ok table) base scope g) ∧
    (uidBaseMatch base = true → scope ≠ .Subtree →
       LdapMsg.entry dn attrs ∈ do_search sess (.ok table) base scope f →
         dn = base) ∧
    (uidBaseMatch base = true →
       LdapMsg.entry dn attrs ∈ do_search sess (.ok table) base .Subtree f →
         likeMatch base dn = true) ∧
    (∀ u : Str, uidBaseMatch base = false → recurse_filters f = u →
       scope ≠ .Subtree →
       LdapMsg.entry dn attrs ∈ do_search sess (.ok table) base scope f →
         dn = "uid=".toList ++ u ++ ',' :: base) ∧
    (∀ u : Str, uidBaseMatch base = false → recurse_filters f = u →
       LdapMsg.entry dn attrs ∈ do_search sess (.ok table) base .Subtree f →
         likeMatch ("uid=".toList ++ u ++ ',' :: base) dn = true) := by
  refine ⟨?_, ?_, ?_, ?_, ?_⟩
  · intro hb
    have hres : resolveSearch base f = resolveSearch base g := by
      unfold resolveSearch
      rw [hb]
      simp
    unfold do_search
    rw [hres]
  · intro hb hscope hmem
    obtain ⟨row, _, hdnrow, hrm, _, _⟩ := do_search_entry_spec hmem
    have hres : resolveSearch base f = (base, false) := by
      unfold resolveSearch
      rw [hb]
      simp
    rw [hres] at hrm
    unfold rowMatches at hrm
    rw [if_neg hscope] at hrm
    rw [← hdnrow]
    simpa using hrm
  · intro hb hmem
    obtain ⟨row, _, hdnrow, hrm, _, _⟩ := do_search_entry_spec hmem
    have hres : resolveSearch base f = (base, false) := by
      unfold resolveSearch
      rw [hb]
      simp
    rw [hres] at hrm
    unfold rowMatches at hrm
    rw [if_pos rfl] at hrm
    rw [← hdnrow]
    exact hrm
  · intro u hb hrf hscope hmem
    obtain ⟨row, _, hdnrow, hrm, _, _⟩ := do_search_entry_spec hmem
    have hres : (resolveSearch base f).1 = "uid=".toList ++ u ++ ',' :: base := by
      unfold resolveSearch
      rw [hb, hrf]
      simp
    rw [hres] at hrm
    unfold rowMatches at hrm
    rw [if_neg hscope] at hrm
    rw [← hdnrow]
    simpa using hrm
  · intro u hb hrf hmem
    obtain ⟨row, _, hdnrow, hrm, _, _⟩ := do_search_entry_spec hmem
    have hres : (resolveSearch base f).1 = "uid=".toList ++ u ++ ',' :: base := by
      unfold resolveSearch
      rw [hb, hrf]
      simp
    rw [hres] at hrm
    unfold rowMatches at hrm
    rw [if_pos rfl] at hrm
    rw [← hdnrow]
    exact hrm

/-- Closed instance of `search_key_scope_amended`: the filter is ignored
when the base holds `uid=carol,...`, and with `Base` scope the lookup is
exact — the only entry the response can carry is the base itself. -/
theorem search_key_scope_amended_witness :
    uidBaseMatch "uid=carol,ou=people".toList = true ∧
    ((LdapSearchScope.Base : LdapSearchScope) ≠ .Subtree) ∧
    do_search ⟨"x".toList, true⟩
        (.ok [⟨"uid=carol,ou=people".toList, "h".toList, 1, "G".toList,
              "S".toList, "E".toList⟩])
        "uid=carol,ou=people".toList .Base (.Equality "uid".toList "z".toList) =
      do_search ⟨"x".toList, true⟩
        (.ok [⟨"uid=carol,ou=people".toList, "h".toList, 1, "G".toList,
              "S".toList, "E".toList⟩])
        "uid=carol,ou=people".toList .Base (.Present "q".toList) ∧
    LdapMsg.entry "uid=carol,ou=people".toList
        (userAttrs ⟨"carol".toList, "uid=carol,ou=people".toList, "h".toList,
                    1, "E".toList, "G".toList, "S".toList⟩) ∈
      do_search ⟨"x".toList, true⟩
        (.ok [⟨"uid=carol,ou=people".toList, "h".toList, 1, "G".toList,
              "S".toList, "E".toList⟩])
        "uid=carol,ou=people".toList .Base (.Present "q".toList) ∧
    "uid=carol,ou=people".toList = "uid=carol,ou=people".toList :=
  ⟨by decide, by decide,
   (search_key_scope_amended ⟨"x".toList, true⟩
     [⟨"uid=carol,ou=people".toList, "h".toList, 1, "G".toList,
       "S".toList, "E".toList⟩]
     "uid=carol,ou=people".toList .Base
     (.Equality "uid".toList "z".toList) (.Present "q".toList)
     "uid=carol,ou=people".toList
     (userAttrs ⟨"carol".toList, "uid=carol,ou=people".toList, "h".toList,
                 1, "E".toList, "G".toList, "S".toList⟩)).1 (by decide),
   by decide,
   (search_key_scope_amended ⟨"x".toList, true⟩
     [⟨"uid=carol,ou=people".toList, "h".toList, 1, "G".toList,
       "S".toList, "E".toList⟩]
     "uid=carol,ou=people".toList .Base
     (.Present "q".toList) (.Present "q".toList)
     "uid=carol,ou=people".toList
     (userAttrs ⟨"carol".toList, "uid=carol,ou=people".toList, "h".toList,
                 1, "E".toList, "G".toList, "S".toList⟩)).2.1
     (by decide) (by decide) (by decide)⟩

/-- C5 as stated is false: the post-filter regex `uid=\w+,<base>` is
unanchored, so it keeps any DN merely containing such a substring.  On the
wildcard path with base `ou=people`, the row
`uid=a,ou=people,uid=b,ou=people` — a deeper descendant, not a direct
child — survives the check and is emitted. -/
theorem search_direct_child_counterexample :
    (resolveSearch "ou=people".toList (.Present "uid".toList)).2 = true ∧
    LdapMsg.entry "uid=a,ou=people,uid=b,ou=people".toList
        (userAttrs ⟨"a".toList, "uid=a,ou=people,uid=b,ou=people".toList,
                    "h".toList, 1, "E".toList, "G".toList, "S".toList⟩) ∈
      do_search ⟨"x".toList, true⟩
        (.ok [⟨"uid=a,ou=people,uid=b,ou=people".toList, "h".toList, 1,
              "G".toList, "S".toList, "E".toList⟩])
        "ou=people".toList .Subtree (.Present "uid".toList) ∧
    isDirectChild "ou=people".toList
        "uid=a,ou=people,uid=b,ou=people".toList = false := by
  refine ⟨by decide, by decide, by decide⟩

/-- C5 amended: on the wildcard path (no `uid=` in the base and sentinel
from the evaluator) every emitted entry's DN contains — at some position,
the check being an unanchored regex search — a substring of the form
`uid=<word>,<base>`; rows without such a substring are discarded, but the
check does not force the whole DN to be a direct child. -/
theorem search_wildcard_postfilter_amended (sess : LdapSession)
    (table : List DbRow) (base : Str) (scope : LdapSearchScope)
    (f : LdapFilter) (dn : Str) (attrs : List (Str × List Str))
    (hb : uidBaseMatch base = false) (hf : recurse_filters f = sentinel)
    (hmem : LdapMsg.entry dn attrs ∈ do_search sess (.ok table) base scope f) :
    tunameCheck base dn = true := by
  obtain ⟨row, _, _, _, htc, _⟩ := do_search_entry_spec hmem
  apply htc
  unfold resolveSearch
  rw [hb, hf]
  simp

/-- Closed instance of `search_wildcard_postfilter_amended`, at the deeper
descendant of the counterexample. -/
theorem search_wildcard_postfilter_amended_witness :
    uidBaseMatch "ou=people".toList = false ∧
    recurse_filters (.Present "uid".toList) = sentinel ∧
    tunameCheck "ou=people".toList
      "uid=a,ou=people,uid=b,ou=people".toList = true :=
  ⟨by decide, rfl,
   search_wildcard_postfilter_amended ⟨"x".toList, true⟩
     [⟨"uid=a,ou=people,uid=b,ou=people".toList, "h".toList, 1,
       "G".toList, "S".toList, "E".toList⟩]
     "ou=people".toList .Subtree (.Present "uid".toList)
     "uid=a,ou=people,uid=b,ou=people".toList
     (userAttrs ⟨"a".toList, "uid=a,ou=people,uid=b,ou=people".toList,
                 "h".toList, 1, "E".toList, "G".toList, "S".toList⟩)
     (by decide) rfl (by decide)⟩

/-! Lemmas and claim theorem for the store adapter's row mapping. -/

/-- Length of a `filterMap` equals the number of inputs it maps to `some`. -/
theorem length_filterMap_eq {α β : Type} (g : α → Option β) (l : List α) :
    (l.filterMap g).length = (l.filter (fun x => (g x).isSome)).length := by
  induction l with
  | nil => rfl
  | cons a l ih =>
    cases hg : g a <;>
      simp [List.filterMap_cons, List.filter_cons, hg, ih]

/-- A row maps to a record exactly when its DN yields a uid. -/
theorem rowToUser_isSome (row : DbRow) : (rowToUser row).isSome = hasUid row := by
  unfold rowToUser hasUid
  cases extract_uid row.userbase <;> rfl

/-- C7: the adapter's per-row uid extraction is never fatal: the query
always returns a record list in which every record stems from a matching
row whose DN yields that record's uid; every matching row with an
extractable uid contributes its record; and the number of records equals
the number of matching rows with an extractable uid — rows without one are
skipped one by one while all remaining rows are still processed. -/
theorem search_user_row_mapping (table : List DbRow) (search : Str)
    (scope : LdapSearchScope) :
    ∃ rs, search_user (.ok table) search scope = .ok rs ∧
      (∀ u ∈ rs, ∃ row ∈ table, rowMatches search scope row = true ∧
         extract_uid row.userbase = .ok u.uid ∧ u.dn = row.userbase ∧
         u.passhash = row.passhash ∧ u.maysearch = row.maysearch) ∧
      (∀ row ∈ table, rowMatches search scope row = true →
         ∀ v, extract_uid row.userbase = .ok v →
           ∃ u ∈ rs, u.dn = row.userbase ∧ u.uid = v) ∧
      rs.length = (table.filter
        (fun row => rowMatches search scope row && hasUid row)).length := by
  refine ⟨_, rfl, ?_, ?_, ?_⟩
  · intro u hu
    rw [List.mem_filterMap] at hu
    obtain ⟨row, hrow, hconv⟩ := hu
    rw [List.mem_filter] at hrow
    obtain ⟨hmem, hp⟩ := hrow
    unfold rowToUser at hconv
    cases hex : extract_uid row.userbase with
    | error e =>
      rw [hex] at hconv
      exact absurd hconv (by simp)
    | ok uid =>
      rw [hex] at hconv
      cases Option.some.inj hconv
      exact ⟨row, hmem, hp, hex, rfl, rfl, rfl⟩
  · intro row hmem hp v hex
    refine ⟨⟨v, row.userbase, row.passhash, row.maysearch, row.email,
             row.given_name, row.surname⟩, ?_, rfl, rfl⟩
    rw [List.mem_filterMap]
    refine ⟨row, List.mem_filter.mpr ⟨hmem, hp⟩, ?_⟩
    unfold rowToUser
    rw [hex]
  · rw [length_filterMap_eq, List.filter_filter]
    have hpred : (fun a => (rowToUser a).isSome && rowMatches search scope a) =
        (fun row => rowMatches search scope row && hasUid row) := by
      funext row
      rw [rowToUser_isSome, Bool.and_comm]
    rw [hpred]

/-- Closed instance of `search_user_row_mapping`: a table with a good row,
a row without an extractable uid and another good row yields exactly the
two good records. -/
theorem search_user_row_mapping_witness :
    rowMatches "%".toList .Subtree
      ⟨"ou=people".toList, "h2".toList, 0, "G".toList, "S".toList,
       "E".toList⟩ = true ∧
    hasUid ⟨"ou=people".toList, "h2".toList, 0, "G".toList, "S".toList,
            "E".toList⟩ = false ∧
    (∃ rs, search_user
        (.ok [⟨"uid=a,o=x".toList, "h1".toList, 0, "G".toList, "S".toList,
              "E".toList⟩,
              ⟨"ou=people".toList, "h2".toList, 0, "G".toList, "S".toList,
              "E".toList⟩,
              ⟨"uid=c,o=x".toList, "h3".toList, 0, "G".toList, "S".toList,
              "E".toList⟩])
        "%".toList .Subtree = .ok rs ∧ rs.length = 2) := by
  refine ⟨by decide, by decide, ?_⟩
  obtain ⟨rs, h1, _, _, hlen⟩ := search_user_row_mapping
    [⟨"uid=a,o=x".toList, "h1".toList, 0, "G".toList, "S".toList,
      "E".toList⟩,
     ⟨"ou=people".toList, "h2".toList, 0, "G".toList, "S".toList,
      "E".toList⟩,
     ⟨"uid=c,o=x".toList, "h3".toList, 0, "G".toList, "S".toList,
      "E".toList⟩]
    "%".toList .Subtree
  refine ⟨rs, h1, ?_⟩
  rw [hlen]
  decide

/-! Lemmas for the DN validator: soundness and completeness of the
component matcher with respect to the rendered grammar. -/

theorem all_takeWhile (p : Char → Bool) (l : Str) :
    (l.takeWhile p).all p = true := by
  induction l with
  | nil => rfl
  | cons a l ih =>
    rw [List.takeWhile_cons]
    by_cases hp : p a
    · simp [hp, ih]
    · simp [hp]

theorem takeWhile_word_append : ∀ (w : Str), w.all isWordChar = true →
    ∀ {c : Char}, isWordChar c = false → ∀ (t : Str),
    (w ++ c :: t).takeWhile isWordChar = w ∧
    (w ++ c :: t).dropWhile isWordChar = c :: t := by
  intro w
  induction w with
  | nil =>
    intro _ c hc t
    simp [List.takeWhile_cons, List.dropWhile_cons, hc]
  | cons a w ih =>
    intro hw c hc t
    simp only [List.all_cons, Bool.and_eq_true] at hw
    obtain ⟨ha, hw⟩ := hw
    have h2 := ih hw hc t
    refine ⟨?_, ?_⟩
    · simp [List.takeWhile_cons, ha, h2.1]
    · simp [List.dropWhile_cons, ha, h2.2]

theorem takeWhile_word_all : ∀ (w : Str), w.all isWordChar = true →
    w.takeWhile isWordChar = w ∧ w.dropWhile isWordChar = [] := by
  intro w
  induction w with
  | nil => intro _; exact ⟨rfl, rfl⟩
  | cons a w ih =>
    intro hw
    simp only [List.all_cons, Bool.and_eq_true] at hw
    obtain ⟨ha, hw⟩ := hw
    have h2 := ih hw
    refine ⟨?_, ?_⟩
    · simp [List.takeWhile_cons, ha, h2.1]
    · simp [List.dropWhile_cons, ha, h2.2]

theorem isEmpty_false_of_ne_nil {l : Str} (h : l ≠ []) : l.isEmpty = false := by
  cases l with
  | nil => exact absurd rfl h
  | cons a l => rfl

theorem chkComp_render {a v : Str} (ha : a ≠ []) (hav : a.all isWordChar = true)
    (hv : v ≠ []) (hvv : v.all isWordChar = true) :
    chkComp (a ++ '=' :: v) = some [] ∧
    ∀ rest : Str, chkComp (a ++ '=' :: (v ++ ',' :: rest)) = some (',' :: rest) := by
  have heq : isWordChar '=' = false := by decide
  have hcm : isWordChar ',' = false := by decide
  have hae : a.isEmpty = false := isEmpty_false_of_ne_nil ha
  have hve : v.isEmpty = false := isEmpty_false_of_ne_nil hv
  constructor
  · have h1 := takeWhile_word_append a hav heq v
    have h2 := takeWhile_word_all v hvv
    unfold chkComp
    rw [h1.1, h1.2, hae]
    simp only [Bool.false_eq_true, if_false]
    rw [h2.1, h2.2, hve]
    simp
  · intro rest
    have h1 := takeWhile_word_append a hav heq (v ++ ',' :: rest)
    have h3 := takeWhile_word_append v hvv hcm rest
    unfold chkComp
    rw [h1.1, h1.2, hae]
    simp only [Bool.false_eq_true, if_false]
    rw [h3.1, h3.2, hve]
    simp

theorem chkComp_inv {s r : Str} (h : chkComp s = some r) :
    ∃ a v, s = a ++ '=' :: (v ++ r) ∧ a ≠ [] ∧ v ≠ [] ∧
      a.all isWordChar = true ∧ v.all isWordChar = true := by
  unfold chkComp at h
  split at h
  · exact absurd h (by simp)
  next hane =>
    split at h
    next r2 heq2 =>
      split at h
      · exact absurd h (by simp)
      next hvne =>
        have hr : r = r2.dropWhile isWordChar := (Option.some.inj h).symm
        refine ⟨s.takeWhile isWordChar, r2.takeWhile isWordChar, ?_, ?_, ?_,
          all_takeWhile _ _, all_takeWhile _ _⟩
        · rw [hr]
          conv_rhs => rw [List.takeWhile_append_dropWhile isWordChar r2]
          rw [← heq2, List.takeWhile_append_dropWhile]
        · intro e
          exact hane (by rw [e]; rfl)
        · intro e
          exact hvne (by rw [e]; rfl)
    next _ => exact absurd h (by simp)

theorem renderDn_single (a v : Str) : renderDn [(a, v)] = a ++ '=' :: v := by
  simp [renderDn]

theorem renderDn_cons (a v : Str) (c : Str × Str) (rest : List (Str × Str)) :
    renderDn ((a, v) :: c :: rest) =
      a ++ '=' :: (v ++ ',' :: renderDn (c :: rest)) := by
  simp [renderDn]

theorem renderDn_head_decomp (a v : Str) (rest : List (Str × Str)) :
    ∃ X : Str, renderDn ((a, v) :: rest) = a ++ '=' :: X := by
  cases rest with
  | nil => exact ⟨v, renderDn_single a v⟩
  | cons c rest2 => exact ⟨v ++ ',' :: renderDn (c :: rest2), renderDn_cons a v c rest2⟩

theorem goodComp_parts {a v : Str} (h : goodComp (a, v) = true) :
    a ≠ [] ∧ v ≠ [] ∧ a.all isWordChar = true ∧ v.all isWordChar = true := by
  unfold goodComp at h
  simp only [Bool.and_eq_true] at h
  obtain ⟨⟨⟨h1, h2⟩, h3⟩, h4⟩ := h
  refine ⟨?_, ?_, h3, h4⟩
  · intro e
    rw [e] at h1
    exact absurd h1 (by decide)
  · intro e
    rw [e] at h2
    exact absurd h2 (by decide)

theorem goodComp_intro {a v : Str} (ha : a ≠ []) (hv : v ≠ [])
    (hav : a.all isWordChar = true) (hvv : v.all isWordChar = true) :
    goodComp (a, v) = true := by
  unfold goodComp
  rw [isEmpty_false_of_ne_nil ha, isEmpty_false_of_ne_nil hv]
  simp [hav, hvv]

theorem chkDnAux_sound : ∀ (comps : List (Str × Str)) (fuel : Nat),
    comps ≠ [] → comps.all goodComp = true →
    (renderDn comps).length < fuel → chkDnAux fuel (renderDn comps) = true := by
  intro comps
  induction comps with
  | nil => intro fuel h _ _; exact absurd rfl h
  | cons c rest ih =>
    intro fuel _ hall hlen
    obtain ⟨a, v⟩ := c
    simp only [List.all_cons, Bool.and_eq_true] at hall
    obtain ⟨hgood, hrest⟩ := hall
    obtain ⟨ha, hv, hav, hvv⟩ := goodComp_parts hgood
    cases fuel with
    | zero => exact absurd hlen (Nat.not_lt_zero _)
    | succ fuel =>
      cases rest with
      | nil =>
        rw [renderDn_single]
        simp only [chkDnAux]
        rw [(chkComp_render ha hav hv hvv).1]
      | cons c2 rest2 =>
        rw [renderDn_cons] at hlen ⊢
        simp only [chkDnAux]
        rw [(chkComp_render ha hav hv hvv).2 (renderDn (c2 :: rest2))]
        show (if (',' : Char) = ',' then chkDnAux fuel (renderDn (c2 :: rest2))
              else false) = true
        rw [if_pos rfl]
        apply ih fuel (by simp) hrest
        simp only [List.length_append, List.length_cons] at hlen
        omega

theorem check_dn_format_sound (comps : List (Str × Str)) (h1 : comps ≠ [])
    (h2 : comps.all goodComp = true) :
    check_dn_format (renderDn comps) = true :=
  chkDnAux_sound comps _ h1 h2 (Nat.lt_succ_self _)

theorem chkDnAux_complete : ∀ (fuel : Nat) (s : Str), chkDnAux fuel s = true →
    ∃ comps, comps ≠ [] ∧ comps.all goodComp = true ∧ s = renderDn comps := by
  intro fuel
  induction fuel with
  | zero =>
    intro s h
    exact absurd h (by simp [chkDnAux])
  | succ fuel ih =>
    intro s h
    simp only [chkDnAux] at h
    cases hc : chkComp s with
    | none =>
      rw [hc] at h
      exact absurd h (by simp)
    | some r =>
      rw [hc] at h
      obtain ⟨a, v, hs, ha, hv, hav, hvv⟩ := chkComp_inv hc
      cases r with
      | nil =>
        refine ⟨[(a, v)], by simp, ?_, ?_⟩
        · rw [List.all_cons]
          simp [goodComp_intro ha hv hav hvv]
        · rw [hs]
          simp [renderDn]
      | cons c rest =>
        replace h : (if c = ',' then chkDnAux fuel rest else false) = true := h
        by_cases hcc : c = ','
        · subst hcc
          rw [if_pos rfl] at h
          obtain ⟨comps, hne, hgood, hrest⟩ := ih rest h
          refine ⟨(a, v) :: comps, by simp, ?_, ?_⟩
          · rw [List.all_cons]
            simp [goodComp_intro ha hv hav hvv, hgood]
          · cases comps with
            | nil => exact absurd rfl hne
            | cons c2 rest2 =>
              rw [renderDn_cons, hs, hrest]
        · rw [if_neg hcc] at h
          exact absurd h (by simp)

theorem check_dn_format_complete {s : Str} (h : check_dn_format s = true) :
    ∃ comps, comps ≠ [] ∧ comps.all goodComp = true ∧ s = renderDn comps :=
  chkDnAux_complete (s.length + 1) s h

theorem renderDn_chars : ∀ (comps : List (Str × Str)),
    comps.all goodComp = true →
    ∀ c ∈ renderDn comps, isWordChar c = true ∨ c = '=' ∨ c = ',' := by
  intro comps
  induction comps with
  | nil =>
    intro _ c hc
    exact absurd hc (by simp [renderDn])
  | cons p rest ih =>
    intro hall c hc
    obtain ⟨a, v⟩ := p
    simp only [List.all_cons, Bool.and_eq_true] at hall
    obtain ⟨hgood, hrest⟩ := hall
    obtain ⟨_, _, hav, hvv⟩ := goodComp_parts hgood
    cases rest with
    | nil =>
      rw [renderDn_single, List.mem_append, List.mem_cons] at hc
      rcases hc with h | h | h
      · exact Or.inl (List.all_eq_true.mp hav c h)
      · exact Or.inr (Or.inl h)
      · exact Or.inl (List.all_eq_true.mp hvv c h)
    | cons c2 rest2 =>
      rw [renderDn_cons] at hc
      rw [List.mem_append, List.mem_cons] at hc
      rcases hc with h | h | h
      · exact Or.inl (List.all_eq_true.mp hav c h)
      · exact Or.inr (Or.inl h)
      · rw [List.mem_append, List.mem_cons] at h
        rcases h with h | h | h
        · exact Or.inl (List.all_eq_true.mp hvv c h)
        · exact Or.inr (Or.inr h)
        · exact ih hrest c h

theorem renderDn_head : ∀ (comps : List (Str × Str)), comps ≠ [] →
    comps.all goodComp = true →
    ∃ c t, renderDn comps = c :: t ∧ isWordChar c = true := by
  intro comps hne hall
  cases comps with
  | nil => exact absurd rfl hne
  | cons p rest =>
    obtain ⟨a, v⟩ := p
    simp only [List.all_cons, Bool.and_eq_true] at hall
    obtain ⟨hgood, _⟩ := hall
    obtain ⟨ha, _, hav, _⟩ := goodComp_parts hgood
    obtain ⟨X, hX⟩ := renderDn_head_decomp a v rest
    cases a with
    | nil => exact absurd rfl ha
    | cons c a2 =>
      refine ⟨c, a2 ++ '=' :: X, ?_, ?_⟩
      · rw [hX]
        rfl
      · exact List.all_eq_true.mp hav c (by simp)

theorem noBadComma_commafree : ∀ (s : Str), (∀ c ∈ s, c ≠ ',') →
    noBadComma s = true := by
  intro s
  induction s with
  | nil => intro _; rfl
  | cons a t ih =>
    intro h
    cases t with
    | nil =>
      have ha := h a (by simp)
      simp [noBadComma, ha]
    | cons b t2 =>
      have ha := h a (by simp)
      have ht : ∀ c ∈ b :: t2, c ≠ ',' := fun c hc => h c (by simp [hc])
      simp only [noBadComma]
      simp [ha, ih ht]

theorem noBadComma_append : ∀ (x y : Str), (∀ c ∈ x, c ≠ ',') → y ≠ [] →
    noBadComma (x ++ y) = noBadComma y := by
  intro x
  induction x with
  | nil => intro y _ _; rfl
  | cons a x ih =>
    intro y hx hy
    have ha : a ≠ ',' := hx a (by simp)
    have hx2 : ∀ c ∈ x, c ≠ ',' := fun c hc => hx c (by simp [hc])
    cases hxy : x ++ y with
    | nil => exact absurd (List.append_eq_nil.mp hxy).2 hy
    | cons b t =>
      rw [List.cons_append, hxy]
      have hab : (a == ',') = false := by
        cases hq : (a == ',') with
        | false => rfl
        | true => exact absurd (by rwa [beq_iff_eq] at hq) ha
      show ((!(a == ',' && b == ',')) && noBadComma (b :: t)) = noBadComma y
      rw [hab]
      simp only [Bool.false_and, Bool.not_false, Bool.true_and]
      rw [← hxy]
      exact ih y hx2 hy

theorem renderDn_noBadComma : ∀ (comps : List (Str × Str)), comps ≠ [] →
    comps.all goodComp = true → noBadComma (renderDn comps) = true := by
  intro comps
  induction comps with
  | nil => intro h _; exact absurd rfl h
  | cons p rest ih =>
    intro _ hall
    obtain ⟨a, v⟩ := p
    simp only [List.all_cons, Bool.and_eq_true] at hall
    obtain ⟨hgood, hrest⟩ := hall
    obtain ⟨ha, hv, hav, hvv⟩ := goodComp_parts hgood
    have hacf : ∀ c ∈ a, c ≠ ',' := by
      intro c hc e
      have hw := List.all_eq_true.mp hav c hc
      rw [e] at hw
      exact absurd hw (by decide)
    have hvcf : ∀ c ∈ v, c ≠ ',' := by
      intro c hc e
      have hw := List.all_eq_true.mp hvv c hc
      rw [e] at hw
      exact absurd hw (by decide)
    cases rest with
    | nil =>
      rw [renderDn_single]
      apply noBadComma_commafree
      intro c hc
      rw [List.mem_append, List.mem_cons] at hc
      rcases hc with h | h | h
      · exact hacf c h
      · rw [h]; decide
      · exact hvcf c h
    | cons c2 rest2 =>
      rw [renderDn_cons]
      have hxcf : ∀ c ∈ a ++ '=' :: v, c ≠ ',' := by
        intro c hc
        rw [List.mem_append, List.mem_cons] at hc
        rcases hc with h | h | h
        · exact hacf c h
        · rw [h]; decide
        · exact hvcf c h
      have hassoc : a ++ '=' :: (v ++ ',' :: renderDn (c2 :: rest2)) =
          (a ++ '=' :: v) ++ ',' :: renderDn (c2 :: rest2) := by simp
      rw [hassoc,
        noBadComma_append (a ++ '=' :: v) (',' :: renderDn (c2 :: rest2))
          hxcf (by simp)]
      obtain ⟨ch, t, hR, hw⟩ := renderDn_head (c2 :: rest2) (by simp) hrest
      rw [hR]
      have hchne : (ch == ',') = false := by
        cases hq : (ch == ',') with
        | false => rfl
        | true =>
          rw [beq_iff_eq] at hq
          rw [hq] at hw
          exact absurd hw (by decide)
      show ((!((',' : Char) == ',' && ch == ',')) && noBadComma (ch :: t)) = true
      rw [hchne]
      simp only [Bool.and_false, Bool.not_false, Bool.true_and]
      rw [← hR]
      exact ih (by simp) hrest

/-- C8: the DN validator accepts every string of the grammar
`(attrName=value,)*attrName=value` with nonempty word-character attribute
names and values; and it rejects every string that contains a space, every
string starting with a comma, and every string with an empty component
(empty input, leading, trailing or doubled comma). -/
theorem check_dn_format_spec :
    (∀ comps : List (Str × Str), comps ≠ [] → comps.all goodComp = true →
       check_dn_format (renderDn comps) = true) ∧
    (∀ s : Str, ' ' ∈ s → check_dn_format s = false) ∧
    (∀ t : Str, check_dn_format (',' :: t) = false) ∧
    (∀ s : Str, hasEmptyComponent s = true → check_dn_format s = false) := by
  refine ⟨check_dn_format_sound, ?_, ?_, ?_⟩
  · intro s hsp
    by_contra hne
    rw [Bool.not_eq_false] at hne
    obtain ⟨comps, hcne, hgood, hs⟩ := check_dn_format_complete hne
    subst hs
    rcases renderDn_chars comps hgood ' ' hsp with h | h | h
    · exact absurd h (by decide)
    · exact absurd h (by decide)
    · exact absurd h (by decide)
  · intro t
    by_contra hne
    rw [Bool.not_eq_false] at hne
    obtain ⟨comps, hcne, hgood, hs⟩ := check_dn_format_complete hne
    obtain ⟨c, t2, hr, hw⟩ := renderDn_head comps hcne hgood
    rw [hr] at hs
    have hcc : c = ',' := by
      have := List.cons.inj hs
      exact this.1.symm
    rw [hcc] at hw
    exact absurd hw (by decide)
  · intro s hec
    by_contra hne
    rw [Bool.not_eq_false] at hne
    obtain ⟨comps, hcne, hgood, hs⟩ := check_dn_format_complete hne
    obtain ⟨c, t2, hr, hw⟩ := renderDn_head comps hcne hgood
    unfold hasEmptyComponent at hec
    subst hs
    rw [hr] at hec
    rw [Bool.or_eq_true, Bool.or_eq_true] at hec
    rcases hec with (h | h) | h
    · exact absurd h (by simp)
    · have hcc : (c == ',') = true := by
        simpa using h
      rw [beq_iff_eq] at hcc
      rw [hcc] at hw
      exact absurd hw (by decide)
    · have hnb := renderDn_noBadComma comps hcne hgood
      rw [hr] at hnb
      rw [hnb] at h
      exact absurd h (by decide)

/-- Closed instance of `check_dn_format_spec`: a two-component DN of the
grammar is accepted; strings with a space, a leading comma or a doubled
comma are rejected. -/
theorem check_dn_format_spec_witness :
    ([("uid".toList, "alice".toList), ("ou".toList, "people".toList)] ≠
      ([] : List (Str × Str))) ∧
    ([("uid".toList, "alice".toList),
      ("ou".toList, "people".toList)].all goodComp = true) ∧
    check_dn_format (renderDn [("uid".toList, "alice".toList),
      ("ou".toList, "people".toList)]) = true ∧
    (' ' ∈ "uid=al ice".toList) ∧
    check_dn_format "uid=al ice".toList = false ∧
    check_dn_format (',' :: "a=b".toList) = false ∧
    hasEmptyComponent "a=b,,c=d".toList = true ∧
    check_dn_format "a=b,,c=d".toList = false :=
  ⟨by decide, by decide,
   check_dn_format_spec.1 _ (by decide) (by decide),
   by decide,
   check_dn_format_spec.2.1 _ (by decide),
   check_dn_format_spec.2.2.1 _,
   by decide,
   check_dn_format_spec.2.2.2 _ (by decide)⟩

end SimpleLdap

